import Mathlib

/-!
A shallow embedding of the Engine.IO v2 protocol codec
(`src/lib/index.js` of the engine.io-protocol repository) and proofs about it.

Modelling conventions:
* JavaScript strings are lists of UTF-16 code units (`List Nat`); `charAt`,
  `substr`, `.length` become list operations on code units.
* Node `Buffer`s and `ArrayBuffer`s are lists of byte values (`List Nat`,
  each element < 256 in any reachable state).
* The continuation-passing style of the source is synchronous; callbacks are
  modelled by returning the list of callback invocations in order.
* Loops that the source runs without a bound (the `for (var i = 1;;i++)`
  scan in `decodePayloadAsBinary`) are modelled with an `Option`: `none`
  means the JavaScript loop never terminates.
* Recursions are fuelled (structural on a `Nat` fuel that bounds the length
  of the list being consumed) so every definition reduces in the kernel.
-/

namespace EioProto

/-! ## UTF-16 code units for JavaScript strings -/

/-- Convert a Lean string literal to the list of UTF-16 code units of the
corresponding JavaScript string (astral code points become surrogate pairs). -/
def jstr (s : String) : List Nat :=
  s.data.foldr
    (fun c acc =>
      if c.toNat < 0x10000 then c.toNat :: acc
      else (0xD800 + (c.toNat - 0x10000) / 0x400)
        :: (0xDC00 + (c.toNat - 0x10000) % 0x400) :: acc)
    []

/-- ASCII decimal digit code unit. -/
def isDigitU (c : Nat) : Bool := 48 ≤ c && c ≤ 57

/-- ASCII hexadecimal digit code unit. -/
def isHexU (c : Nat) : Bool :=
  isDigitU c || (65 ≤ c && c ≤ 70) || (97 ≤ c && c ≤ 102)

/-- The ECMAScript `StrWhiteSpace` code units (WhiteSpace and LineTerminator)
that `ToNumber` trims from a string. -/
def isJsWsU (c : Nat) : Bool :=
  c = 9 || c = 10 || c = 11 || c = 12 || c = 13 || c = 32 || c = 160 ||
  c = 0x1680 || (0x2000 ≤ c && c ≤ 0x200A) || c = 0x2028 || c = 0x2029 ||
  c = 0x202F || c = 0x205F || c = 0x3000 || c = 0xFEFF

/-- Numeric value of a run of ASCII digit code units (most significant first). -/
def digitsToNat (ds : List Nat) : Nat := ds.foldl (fun a c => a * 10 + (c - 48)) 0

/-- Numeric value of a run of ASCII hex digit code units. -/
def hexToNat (ds : List Nat) : Nat :=
  ds.foldl
    (fun a c => a * 16 + (if c ≤ 57 then c - 48 else if c ≤ 70 then c - 55 else c - 87)) 0

/-- Fuelled decimal-digit expansion of a natural number (digit values,
most significant first); the fuel bounds the number of divisions by 10. -/
def natDigitsAux : Nat → Nat → List Nat
  | 0, n => [n]
  | f + 1, n => if n < 10 then [n] else natDigitsAux f (n / 10) ++ [n % 10]

/-- Decimal digit values of `n`, most significant first: `120 ↦ [1, 2, 0]`.
Models JavaScript's `String(n)` for the (integral) numbers that occur here. -/
def natDigits (n : Nat) : List Nat := natDigitsAux n n

/-- Decimal digit code units of `n`: `120 ↦ "120"`. -/
def charDigits (n : Nat) : List Nat := (natDigits n).map (fun d => 48 + d)

/-! ### Lemmas about decimal digits -/

theorem natDigitsAux_congr : ∀ n f g, n ≤ f → n ≤ g →
    natDigitsAux f n = natDigitsAux g n := by
  intro n
  induction n using Nat.strong_induction_on with
  | _ n ih =>
    intro f g hf hg
    by_cases h10 : n < 10
    · cases f with
      | zero => cases g with
        | zero => rfl
        | succ g => simp [natDigitsAux, h10]
      | succ f => cases g with
        | zero => simp [natDigitsAux, h10]
        | succ g => simp [natDigitsAux, h10]
    · have h1 : 1 ≤ n := by omega
      cases f with
      | zero => omega
      | succ f => cases g with
        | zero => omega
        | succ g =>
          have hd : n / 10 < n := Nat.div_lt_self (by omega) (by omega)
          have hf' : n / 10 ≤ f := by omega
          have hg' : n / 10 ≤ g := by omega
          simp only [natDigitsAux, h10, if_false]
          rw [ih (n / 10) hd f g hf' hg']

theorem natDigits_eq (n : Nat) :
    natDigits n = if n < 10 then [n] else natDigits (n / 10) ++ [n % 10] := by
  by_cases h10 : n < 10
  · cases n with
    | zero => simp [natDigits, natDigitsAux, h10]
    | succ m => simp [natDigits, natDigitsAux, h10]
  · have h1 : 1 ≤ n := by omega
    cases n with
    | zero => omega
    | succ m =>
      simp only [natDigits, natDigitsAux, h10, if_false]
      have hd : (m + 1) / 10 ≤ m := by omega
      rw [natDigitsAux_congr ((m + 1) / 10) m ((m + 1) / 10) hd (le_refl _)]

theorem natDigits_ne_nil (n : Nat) : natDigits n ≠ [] := by
  rw [natDigits_eq]
  by_cases h : n < 10 <;> simp [h]

theorem natDigits_lt_ten (n : Nat) : ∀ d ∈ natDigits n, d < 10 := by
  induction n using Nat.strong_induction_on with
  | _ n ih =>
    rw [natDigits_eq]
    by_cases h : n < 10
    · intro d hd
      simp [h] at hd
      omega
    · simp only [h, if_false]
      intro d hd
      rcases List.mem_append.mp hd with h1 | h1
      · exact ih (n / 10) (Nat.div_lt_self (by omega) (by omega)) d h1
      · simp at h1; omega

/-- Folding digit values back into a number. -/
def digitValsToNat (ds : List Nat) : Nat := ds.foldl (fun a d => a * 10 + d) 0

theorem digitValsToNat_append (l : List Nat) (d : Nat) :
    digitValsToNat (l ++ [d]) = digitValsToNat l * 10 + d := by
  simp [digitValsToNat, List.foldl_append]

theorem digitValsToNat_natDigits (n : Nat) : digitValsToNat (natDigits n) = n := by
  induction n using Nat.strong_induction_on with
  | _ n ih =>
    rw [natDigits_eq]
    by_cases h : n < 10
    · simp [h, digitValsToNat]
    · simp only [h, if_false, digitValsToNat_append]
      rw [ih (n / 10) (Nat.div_lt_self (by omega) (by omega))]
      omega

theorem digitsToNat_map_add48 (ds : List Nat) (hds : ∀ d ∈ ds, d < 10) :
    digitsToNat (ds.map (fun d => 48 + d)) = digitValsToNat ds := by
  induction ds using List.reverseRecOn with
  | nil => rfl
  | append_singleton l d ih =>
    have hl : ∀ x ∈ l, x < 10 := fun x hx => hds x (List.mem_append_left _ hx)
    have hd : d < 10 := hds d (List.mem_append_right _ (List.mem_singleton_self d))
    simp only [List.map_append, List.map_cons, List.map_nil]
    rw [digitValsToNat_append]
    show digitsToNat (l.map (fun d => 48 + d) ++ [48 + d]) = _
    simp only [digitsToNat, List.foldl_append, List.foldl_cons, List.foldl_nil]
    have := ih hl
    simp only [digitsToNat, digitValsToNat] at this ⊢
    rw [this]
    omega

theorem digitsToNat_charDigits (n : Nat) : digitsToNat (charDigits n) = n := by
  rw [charDigits, digitsToNat_map_add48 _ (natDigits_lt_ten n), digitValsToNat_natDigits]

theorem charDigits_all_digit (n : Nat) : ∀ c ∈ charDigits n, isDigitU c = true := by
  intro c hc
  rcases List.mem_map.mp hc with ⟨d, hd, rfl⟩
  have := natDigits_lt_ten n d hd
  simp [isDigitU]; omega

theorem charDigits_ne_nil (n : Nat) : charDigits n ≠ [] := by
  simp [charDigits, natDigits_ne_nil]

theorem charDigits_single (d : Nat) (h : d < 10) : charDigits d = [48 + d] := by
  simp [charDigits, natDigits_eq, h]

/-! ## JavaScript `Number(string)` and `parseInt(string)`

`decodePayload` tests a length prefix with `length != (n = Number(length))`
(loose inequality).  Since the loose comparison of a string with a number
converts the string with `ToNumber`, the test fails exactly when
`ToNumber(length)` is `NaN`; afterwards the only use of `n` that can succeed
is the comparison `length != msg.length` (again loose), which holds exactly
when `ToNumber(length)` is the non-negative integer `msg.length`.  Both
failure points return the same callback `(err, 0, 1)`, so for the observable
behaviour it suffices to model the single function below: `some n` when
`ToNumber(s)` is exactly the non-negative integer `n`, `none` otherwise
(`NaN`, infinite, negative or fractional values).  IEEE-754 rounding of
values within double precision of an integer (e.g. `"1.0000000000000000001"`)
and underflow to `0` are not modelled. -/

/-- Trim ECMAScript whitespace from both ends (the trim done by `ToNumber`). -/
def trimJs (s : List Nat) : List Nat :=
  ((s.dropWhile isJsWsU).reverse.dropWhile isJsWsU).reverse

/-- Parse an optional exponent part (`e`/`E`, optional sign, digits) that must
consume the whole remainder; `none` means the remainder is not a valid
exponent part (so `ToNumber` yields `NaN`). -/
def expPart (r : List Nat) : Option Int :=
  match r with
  | [] => some 0
  | e :: r1 =>
    if e = 101 || e = 69 then
      match r1 with
      | 43 :: ds => if ds ≠ [] ∧ ds.all isDigitU then some (digitsToNat ds) else none
      | 45 :: ds => if ds ≠ [] ∧ ds.all isDigitU then some (-(digitsToNat ds : Int)) else none
      | ds => if ds ≠ [] ∧ ds.all isDigitU then some (digitsToNat ds) else none
    else none

/-- Value of an ECMAScript `StrUnsignedDecimalLiteral` (without `Infinity`),
restricted to results that are non-negative integers; `neg` records a leading
minus sign (so only the value `0` survives). -/
def decValNat (t : List Nat) (neg : Bool) : Option Nat :=
  let ip := t.takeWhile isDigitU
  let r1 := t.dropWhile isDigitU
  let fp := match r1 with
    | 46 :: r => r.takeWhile isDigitU
    | _ => []
  let r2 := match r1 with
    | 46 :: r => r.dropWhile isDigitU
    | _ => r1
  if ip = [] ∧ fp = [] then none
  else
    match expPart r2 with
    | none => none
    | some e =>
      let M := digitsToNat (ip ++ fp)
      let e' : Int := e - fp.length
      if neg then (if M = 0 then some 0 else none)
      else if 0 ≤ e' then some (M * 10 ^ e'.toNat)
      else if M % 10 ^ (-e').toNat = 0 then some (M / 10 ^ (-e').toNat) else none

/-- Signed decimal body after the optional sign: `Infinity` is never a natural
number, anything else is a decimal literal. -/
def signedBody (r : List Nat) (neg : Bool) : Option Nat :=
  if r = jstr "Infinity" then none else decValNat r neg

/-- `some n` iff JavaScript `Number(s)` (ES5 `ToNumber` on strings: trimmed,
optionally signed decimal with fraction and exponent, hex with `0x`/`0X`, the
empty/whitespace string giving `0`) is exactly the non-negative integer `n`. -/
def jsNumberNat (s : List Nat) : Option Nat :=
  match trimJs s with
  | [] => some 0
  | c :: r =>
    if c = 48 ∧ (r.take 1 = [120] ∨ r.take 1 = [88]) then
      (if r.drop 1 ≠ [] ∧ (r.drop 1).all isHexU then some (hexToNat (r.drop 1)) else none)
    else if c = 43 then signedBody r false
    else if c = 45 then signedBody r true
    else signedBody (c :: r) false

/-- JavaScript `parseInt(s)` restricted to the strings that occur in
`decodePayloadAsBinary`: there `s` is a concatenation of `String(byte)`
renderings, hence consists only of decimal digits, and `parseInt` returns the
value of its (here: maximal) digit prefix, or `NaN` (`none`) on the empty
string. -/
def parseIntDec (s : List Nat) : Option Nat :=
  let d := s.takeWhile isDigitU
  if d = [] then none else some (digitsToNat d)

/-! ### Lemmas: canonical digit strings parse back -/

theorem isJsWsU_of_digit (c : Nat) (h : isDigitU c = true) : isJsWsU c = false := by
  simp [isDigitU] at h
  simp [isJsWsU]
  omega

theorem trimJs_all_digits (s : List Nat) (h : ∀ c ∈ s, isDigitU c = true) :
    trimJs s = s := by
  have h1 : s.dropWhile isJsWsU = s := by
    cases s with
    | nil => rfl
    | cons c cs =>
      rw [List.dropWhile_cons]
      simp [isJsWsU_of_digit c (h c (List.mem_cons_self c cs))]
  have h2 : s.reverse.dropWhile isJsWsU = s.reverse := by
    cases hs : s.reverse with
    | nil => rfl
    | cons c cs =>
      rw [List.dropWhile_cons]
      have hc : c ∈ s := by
        rw [← List.mem_reverse, hs]; exact List.mem_cons_self c cs
      simp [isJsWsU_of_digit c (h c hc)]
  rw [trimJs, h1, h2, List.reverse_reverse]

theorem jsNumberNat_all_digits (s : List Nat) (hne : s ≠ [])
    (h : ∀ c ∈ s, isDigitU c = true) : jsNumberNat s = some (digitsToNat s) := by
  rw [jsNumberNat, trimJs_all_digits s h]
  cases s with
  | nil => exact absurd rfl hne
  | cons c r =>
    have hc : isDigitU c = true := h c (List.mem_cons_self c r)
    have hc' : 48 ≤ c ∧ c ≤ 57 := by simpa [isDigitU] using hc
    have hhex : ¬(c = 48 ∧ (r.take 1 = [120] ∨ r.take 1 = [88])) := by
      rintro ⟨-, h1 | h1⟩ <;>
      · cases r with
        | nil => simp at h1
        | cons d rs =>
          simp [List.take] at h1
          have := h d (by simp)
          simp [isDigitU] at this
          omega
    have h43 : ¬(c = 43) := by omega
    have h45 : ¬(c = 45) := by omega
    simp only [hhex, if_false, h43, h45]
    have hInf : (c :: r) ≠ jstr "Infinity" := by
      intro heq
      have : c = 73 := by
        have := congrArg (List.take 1) heq
        simp [jstr] at this
        omega
      omega
    rw [signedBody, if_neg hInf, decValNat]
    have htake : (c :: r).takeWhile isDigitU = c :: r :=
      List.takeWhile_eq_self_iff.mpr h
    have hdrop : (c :: r).dropWhile isDigitU = [] :=
      List.dropWhile_eq_nil_iff.mpr h
    simp only [htake, hdrop]
    simp [expPart]

theorem jsNumberNat_charDigits (n : Nat) : jsNumberNat (charDigits n) = some n := by
  rw [jsNumberNat_all_digits _ (charDigits_ne_nil n) (charDigits_all_digit n),
    digitsToNat_charDigits]

theorem parseIntDec_all_digits (s : List Nat) (hne : s ≠ [])
    (h : ∀ c ∈ s, isDigitU c = true) : parseIntDec s = some (digitsToNat s) := by
  rw [parseIntDec]
  have htake : s.takeWhile isDigitU = s := List.takeWhile_eq_self_iff.mpr h
  simp only [htake]
  simp [hne]

theorem parseIntDec_charDigits (n : Nat) : parseIntDec (charDigits n) = some n := by
  rw [parseIntDec_all_digits _ (charDigits_ne_nil n) (charDigits_all_digit n),
    digitsToNat_charDigits]

/-! ## Base64 (Node `buffer.toString('base64')` / `new Buffer(str, 'base64')`) -/

/-- Code unit of the base64 alphabet character for a sextet. -/
def b64Char (k : Nat) : Nat :=
  if k < 26 then 65 + k
  else if k < 52 then 97 + (k - 26)
  else if k < 62 then 48 + (k - 52)
  else if k = 62 then 43 else 47

/-- Sextet value of a base64 alphabet code unit (`none` for `=` and every
other non-alphabet unit, which Node's lenient decoder skips). -/
def b64Val (c : Nat) : Option Nat :=
  if 65 ≤ c ∧ c ≤ 90 then some (c - 65)
  else if 97 ≤ c ∧ c ≤ 122 then some (c - 97 + 26)
  else if 48 ≤ c ∧ c ≤ 57 then some (c - 48 + 52)
  else if c = 43 then some 62
  else if c = 47 then some 63
  else none

/-- RFC 4648 base64 with padding, as produced by `buf.toString('base64')`. -/
def b64encode : List Nat → List Nat
  | [] => []
  | [a] => [b64Char (a / 4), b64Char (a % 4 * 16), 61, 61]
  | [a, b] => [b64Char (a / 4), b64Char (a % 4 * 16 + b / 16), b64Char (b % 16 * 4), 61]
  | a :: b :: c :: rest =>
    b64Char (a / 4) :: b64Char (a % 4 * 16 + b / 16) ::
    b64Char (b % 16 * 4 + c / 64) :: b64Char (c % 64) :: b64encode rest

/-- Bytes from a stream of sextets, groups of four giving three bytes and a
final partial group of two or three giving one or two bytes. -/
def b64core : List Nat → List Nat
  | a :: b :: c :: d :: rest =>
    (a * 4 + b / 16) :: (b % 16 * 16 + c / 4) :: (c % 4 * 64 + d) :: b64core rest
  | [a, b] => [a * 4 + b / 16]
  | [a, b, c] => [a * 4 + b / 16, b % 16 * 16 + c / 4]
  | _ => []

/-- Node's lenient base64 decoder: non-alphabet units (including `=`) are
dropped, then sextets are recombined into bytes. -/
def b64decode (s : List Nat) : List Nat := b64core (s.filterMap b64Val)

theorem b64Val_b64Char : ∀ k, k < 64 → b64Val (b64Char k) = some k := by decide

theorem b64Val_eq : b64Val 61 = none := by decide

theorem b64_roundtrip : ∀ bs : List Nat, (∀ x ∈ bs, x < 256) →
    b64decode (b64encode bs) = bs := by
  intro bs
  induction bs using b64encode.induct with
  | case1 => intro _; rfl
  | case2 a =>
    intro h
    have ha : a < 256 := h a (by simp)
    have h1 : a / 4 < 64 := by omega
    have h2 : a % 4 * 16 < 64 := by omega
    simp only [b64encode, b64decode, List.filterMap_cons,
      b64Val_b64Char _ h1, b64Val_b64Char _ h2, b64Val_eq, List.filterMap_nil]
    show b64core [a / 4, a % 4 * 16] = [a]
    simp only [b64core]
    congr 1
    omega
  | case3 a b =>
    intro h
    have ha : a < 256 := h a (by simp)
    have hb : b < 256 := h b (by simp)
    have h1 : a / 4 < 64 := by omega
    have h2 : a % 4 * 16 + b / 16 < 64 := by omega
    have h3 : b % 16 * 4 < 64 := by omega
    simp only [b64encode, b64decode, List.filterMap_cons,
      b64Val_b64Char _ h1, b64Val_b64Char _ h2, b64Val_b64Char _ h3, b64Val_eq,
      List.filterMap_nil]
    show b64core [a / 4, a % 4 * 16 + b / 16, b % 16 * 4] = [a, b]
    simp only [b64core]
    congr 2 <;> omega
  | case4 a b c rest ih =>
    intro h
    have ha : a < 256 := h a (by simp)
    have hb : b < 256 := h b (by simp)
    have hc : c < 256 := h c (by simp)
    have hrest : ∀ x ∈ rest, x < 256 := fun x hx => h x (by simp [hx])
    have h1 : a / 4 < 64 := by omega
    have h2 : a % 4 * 16 + b / 16 < 64 := by omega
    have h3 : b % 16 * 4 + c / 64 < 64 := by omega
    have h4 : c % 64 < 64 := by omega
    simp only [b64encode, b64decode, List.filterMap_cons,
      b64Val_b64Char _ h1, b64Val_b64Char _ h2, b64Val_b64Char _ h3, b64Val_b64Char _ h4]
    show b64core (_ :: _ :: _ :: _ :: _) = _
    simp only [b64core]
    rw [← b64decode]
    rw [ih hrest]
    congr 3 <;> omega

theorem b64encode_all_lt128 : ∀ bs : List Nat, ∀ c ∈ b64encode bs, c < 128 := by
  have hchar : ∀ k, b64Char k < 128 := by
    intro k
    rw [b64Char]
    split <;> try omega
    split <;> try omega
    split <;> try omega
    split <;> omega
  intro bs
  induction bs using b64encode.induct with
  | case1 => simp [b64encode]
  | case2 a => simp [b64encode]; exact ⟨hchar _, hchar _⟩
  | case3 a b => simp [b64encode]; exact ⟨hchar _, hchar _, hchar _⟩
  | case4 a b c rest ih =>
    simp only [b64encode]
    intro x hx
    simp at hx
    rcases hx with h | h | h | h | h
    · rw [h]; exact hchar _
    · rw [h]; exact hchar _
    · rw [h]; exact hchar _
    · rw [h]; exact hchar _
    · exact ih x h

/-! ## UTF-8 (Node `new Buffer(str, 'utf8')` / `buf.toString('utf8')`)

Strings are UTF-16 code-unit lists; well-paired surrogates become 4-byte
sequences, lone surrogates the replacement character `U+FFFD` (Node's
behaviour).  The decoder maps invalid byte sequences to `U+FFFD`
(approximating Node's replacement behaviour; it is exact on valid UTF-8,
and the proofs only rely on it for ASCII). -/

/-- High surrogate? -/
def isHighSurr (u : Nat) : Bool := 0xD800 ≤ u && u ≤ 0xDBFF

/-- Low surrogate? -/
def isLowSurr (u : Nat) : Bool := 0xDC00 ≤ u && u ≤ 0xDFFF

/-- Fuelled UTF-8 encoding of a UTF-16 code-unit list (the fuel bounds the
number of code units still to consume; each step consumes one or two). -/
def utf8EncodeAux : Nat → List Nat → List Nat
  | _, [] => []
  | 0, _ :: _ => []
  | f + 1, u :: rest =>
    if u < 0x80 then u :: utf8EncodeAux f rest
    else if u < 0x800 then (0xC0 + u / 64) :: (0x80 + u % 64) :: utf8EncodeAux f rest
    else if isHighSurr u then
      match rest with
      | v :: rest2 =>
        if isLowSurr v then
          let cp := 0x10000 + (u - 0xD800) * 0x400 + (v - 0xDC00)
          (0xF0 + cp / 0x40000) :: (0x80 + cp / 0x1000 % 64) ::
            (0x80 + cp / 64 % 64) :: (0x80 + cp % 64) :: utf8EncodeAux f rest2
        else 0xEF :: 0xBF :: 0xBD :: utf8EncodeAux f (v :: rest2)
      | [] => [0xEF, 0xBF, 0xBD]
    else if isLowSurr u then 0xEF :: 0xBF :: 0xBD :: utf8EncodeAux f rest
    else (0xE0 + u / 0x1000) :: (0x80 + u / 64 % 64) :: (0x80 + u % 64) ::
      utf8EncodeAux f rest

/-- UTF-8 encoding of a UTF-16 code-unit list: well-paired surrogates become
4-byte sequences, lone surrogates the replacement character. -/
def utf8Encode (s : List Nat) : List Nat := utf8EncodeAux s.length s

/-- Continuation byte? -/
def isCont (b : Nat) : Bool := 0x80 ≤ b && b ≤ 0xBF

/-- Fuelled UTF-8 decoding back to UTF-16 code units, invalid input mapped to
`U+FFFD` (each step consumes between one and four bytes). -/
def utf8DecodeAux : Nat → List Nat → List Nat
  | _, [] => []
  | 0, _ :: _ => []
  | f + 1, b :: bs =>
    if b < 0x80 then b :: utf8DecodeAux f bs
    else if 0xC2 ≤ b ∧ b ≤ 0xDF then
      match bs with
      | b1 :: bs2 =>
        if isCont b1 then ((b - 0xC0) * 64 + (b1 - 0x80)) :: utf8DecodeAux f bs2
        else 0xFFFD :: utf8DecodeAux f (b1 :: bs2)
      | [] => [0xFFFD]
    else if 0xE0 ≤ b ∧ b ≤ 0xEF then
      match bs with
      | b1 :: b2 :: bs3 =>
        if isCont b1 ∧ isCont b2 ∧ (b = 0xE0 → 0xA0 ≤ b1) ∧ (b = 0xED → b1 ≤ 0x9F) then
          ((b - 0xE0) * 0x1000 + (b1 - 0x80) * 64 + (b2 - 0x80)) :: utf8DecodeAux f bs3
        else 0xFFFD :: utf8DecodeAux f (b1 :: b2 :: bs3)
      | bs' => 0xFFFD :: utf8DecodeAux f bs'
    else if 0xF0 ≤ b ∧ b ≤ 0xF4 then
      match bs with
      | b1 :: b2 :: b3 :: bs4 =>
        if isCont b1 ∧ isCont b2 ∧ isCont b3 ∧
            (b = 0xF0 → 0x90 ≤ b1) ∧ (b = 0xF4 → b1 ≤ 0x8F) then
          let cp := (b - 0xF0) * 0x40000 + (b1 - 0x80) * 0x1000 + (b2 - 0x80) * 64 + (b3 - 0x80)
          (0xD800 + (cp - 0x10000) / 0x400) :: (0xDC00 + (cp - 0x10000) % 0x400) ::
            utf8DecodeAux f bs4
        else 0xFFFD :: utf8DecodeAux f (b1 :: b2 :: b3 :: bs4)
      | bs' => 0xFFFD :: utf8DecodeAux f bs'
    else 0xFFFD :: utf8DecodeAux f bs

/-- UTF-8 decoding of a byte list to UTF-16 code units. -/
def utf8Decode (bs : List Nat) : List Nat := utf8DecodeAux bs.length bs

theorem utf8EncodeAux_ascii : ∀ (f : Nat) (s : List Nat), s.length ≤ f →
    (∀ u ∈ s, u < 128) → utf8EncodeAux f s = s := by
  intro f
  induction f with
  | zero =>
    intro s hf _
    cases s with
    | nil => rfl
    | cons u rest => simp at hf
  | succ f ih =>
    intro s hf h
    cases s with
    | nil => rfl
    | cons u rest =>
      have hu : u < 128 := h u (by simp)
      rw [utf8EncodeAux.eq_def]
      simp only [if_pos hu]
      rw [ih rest (by simp at hf; omega) (fun x hx => h x (by simp [hx]))]

theorem utf8Encode_ascii (s : List Nat) (h : ∀ u ∈ s, u < 128) :
    utf8Encode s = s := utf8EncodeAux_ascii s.length s (le_refl _) h

theorem utf8DecodeAux_ascii : ∀ (f : Nat) (s : List Nat), s.length ≤ f →
    (∀ u ∈ s, u < 128) → utf8DecodeAux f s = s := by
  intro f
  induction f with
  | zero =>
    intro s hf _
    cases s with
    | nil => rfl
    | cons u rest => simp at hf
  | succ f ih =>
    intro s hf h
    cases s with
    | nil => rfl
    | cons u rest =>
      have hu : u < 128 := h u (by simp)
      rw [utf8DecodeAux.eq_def]
      simp only [if_pos hu]
      rw [ih rest (by simp at hf; omega) (fun x hx => h x (by simp [hx]))]

theorem utf8Decode_ascii (s : List Nat) (h : ∀ u ∈ s, u < 128) :
    utf8Decode s = s := utf8DecodeAux_ascii s.length s (le_refl _) h

/-! ## Data model -/

/-- The `data` field of a packet: a text string (UTF-16 code units), a Node
`Buffer`, or an `ArrayBuffer` (both byte lists; an `ArrayBuffer` and the
`Buffer` with the same bytes are distinct JavaScript values). -/
inductive PData where
  | str (s : List Nat)
  | buf (b : List Nat)
  | abuf (b : List Nat)
deriving DecidableEq

/-- A packet.  `type` is `none` when the field is `undefined` (which the
decoders can produce via an out-of-range table lookup), otherwise the type
name string; `data` is optional. -/
structure Packet where
  type : Option String
  data : Option PData
deriving DecidableEq

/-- `exports.packets`: name → wire code. -/
def packets : List (String × Nat) :=
  [("open", 0), ("close", 1), ("ping", 2), ("pong", 3),
   ("message", 4), ("upgrade", 5), ("noop", 6)]

/-- `packetslist = keys(packets)`: wire code → name. -/
def packetslist : List String :=
  ["open", "close", "ping", "pong", "message", "upgrade", "noop"]

/-- `packets[type]` for a possibly-`undefined` type field. -/
def packetsCode (t : Option String) : Option Nat :=
  match t with
  | some s => (packets.find? (fun x => x.1 == s)).map (·.2)
  | none => none

/-- The premade error packet `{ type: 'error', data: 'parser error' }`. -/
def errPacket : Packet := ⟨some "error", some (.str (jstr "parser error"))⟩

/-- What the source encodes as a single packet: a text string or a buffer. -/
inductive Encoded where
  | txt (s : List Nat)
  | bin (b : List Nat)
deriving DecidableEq

/-- One callback invocation of a payload decoder: `(packet, i, total)`. -/
def Call : Type := Packet × Nat × Nat

instance : DecidableEq Call := by unfold Call; infer_instance

/-! ## Single-packet codec -/

/-- `'' + packets[packet.type]`: the type-code digit as a string, or the
string `"undefined"` when the type is not in the table (JavaScript coerces
`undefined` into the concatenation). -/
def typeDigitStr (t : Option String) : List Nat :=
  match packetsCode t with
  | some c => [48 + c]
  | none => jstr "undefined"

/-- `typeBuffer[0] = packets[packet.type]`: writing `undefined` into a
`Buffer` stores `0`. -/
def typeByte (t : Option String) : Nat := (packetsCode t).getD 0

/-- `encodeBase64Packet` (lines 100-112), message only.  For `ArrayBuffer`
data the source copies `packet.data[i]` — an `ArrayBuffer` has no indexed
elements, so every read is `undefined` and the copied buffer is zero-filled.
For string data, `String.prototype.toString` ignores the `'base64'` argument
and returns the string itself.  For absent data the source would throw
(`undefined.toString`); that case is unreachable from `encodePacket` and is
modelled as the bare header. -/
def encodeBase64Packet (p : Packet) : List Nat :=
  98 :: typeDigitStr p.type ++
    (match p.data with
     | some (.buf b) => b64encode b
     | some (.abuf a) => b64encode (List.replicate a.length 0)
     | some (.str s) => s
     | none => [])

/-- State of the packet after `encodeBase64Packet` returns (line 106
assigns `packet.data = buf` when the data is an `ArrayBuffer`, where `buf`
is the zero-filled copy; otherwise the packet is untouched). -/
def encodeBase64PacketPost (p : Packet) : Packet :=
  match p.data with
  | some (.abuf a) => ⟨p.type, some (.buf (List.replicate a.length 0))⟩
  | _ => p

/-- `encodePacket` (lines 51-91).  `supportsBinary` is `null` (falsy) when
the callback was passed in its position.  Buffer data with a truthy
capability becomes a type byte followed by the raw bytes; `ArrayBuffer` data
likewise (copied through a `Uint8Array` view); with a falsy capability both
delegate to the base64 encoder.  Otherwise the text digit of the type code
followed by the stringified data (absent data encodes as the digit alone). -/
def encodePacket (p : Packet) (supportsBinary : Bool) : Encoded :=
  match p.data with
  | some (.buf b) =>
    if supportsBinary then .bin (typeByte p.type :: b) else .txt (encodeBase64Packet p)
  | some (.abuf a) =>
    if supportsBinary then .bin (typeByte p.type :: a) else .txt (encodeBase64Packet p)
  | some (.str s) => .txt (typeDigitStr p.type ++ s)
  | none => .txt (typeDigitStr p.type)

/-- State of the packet after `encodePacket` returns: only the base64
delegation can mutate it. -/
def encodePacketPost (p : Packet) (supportsBinary : Bool) : Packet :=
  match p.data with
  | some (.buf _) => if supportsBinary then p else encodeBase64PacketPost p
  | some (.abuf _) => if supportsBinary then p else encodeBase64PacketPost p
  | _ => p

/-- `packetslist[msg.charAt(0)]`: a JavaScript array indexed by a one-unit
string yields an element only for the keys `'0'`..`'6'`. -/
def codeOfDigitUnit (c : Nat) : Option String :=
  if 48 ≤ c ∧ c ≤ 54 then packetslist.get? (c - 48) else none

/-- `decodeBase64Packet` (lines 159-168): the first character indexes the
type list (possibly `undefined`), the remainder is base64-decoded; with
`binaryType === 'arraybuffer'` the bytes are rewrapped as an `ArrayBuffer`. -/
def decodeBase64Packet (msg : List Nat) (binaryTypeAB : Bool) : Packet :=
  let t : Option String :=
    match msg with
    | c :: _ => codeOfDigitUnit c
    | [] => none
  let d := b64decode (msg.drop 1)
  ⟨t, some (if binaryTypeAB then .abuf d else .buf d)⟩

/-- Text path of `decodePacket` (lines 123-139).  `Number(type) != type`
(loose) holds exactly when `ToNumber` of the one-character string is `NaN`,
which for a single unit coincides with `jsNumberNat` being `none`; then
`!packetslist[type]` rejects everything but `'0'`..`'6'`.  The empty string
reaches the table lookup with key `''` and is rejected there. -/
def decodePacketStr (s : List Nat) (binaryTypeAB : Bool) : Packet :=
  match s with
  | [] => errPacket
  | c :: rest =>
    if c = 98 then decodeBase64Packet rest binaryTypeAB
    else if (jsNumberNat [c]).isNone then errPacket
    else
      match codeOfDigitUnit c with
      | none => errPacket
      | some name =>
        if rest ≠ [] then ⟨some name, some (.str rest)⟩ else ⟨some name, none⟩

/-- Binary path of `decodePacket` (lines 141-150): `packetslist[data[0]]`
(`undefined` for an empty buffer or an out-of-range code), data is the rest.
(With `binaryType === 'arraybuffer'` and an empty buffer the source would
throw `new Uint8Array(-1)`; no claim exercises that corner.) -/
def decodePacketBin (b : List Nat) (binaryTypeAB : Bool) : Packet :=
  let t : Option String :=
    match b with
    | t0 :: _ => packetslist.get? t0
    | [] => none
  if binaryTypeAB then ⟨t, some (.abuf (b.drop 1))⟩ else ⟨t, some (.buf (b.drop 1))⟩

/-- `decodePacket` dispatch: string input takes the text path, buffer input
the binary path. -/
def decodePacket (d : Encoded) (binaryTypeAB : Bool) : Packet :=
  match d with
  | .txt s => decodePacketStr s binaryTypeAB
  | .bin b => decodePacketBin b binaryTypeAB

/-! ### Packet equivalence (byte buffer ≡ array-buffer view of same bytes) -/

/-- Data equivalence used by the spec's round-trip property. -/
def pdataEquiv : PData → PData → Bool
  | .str s, .str t => s == t
  | .buf b, .buf c => b == c
  | .buf b, .abuf c => b == c
  | .abuf b, .buf c => b == c
  | .abuf b, .abuf c => b == c
  | _, _ => false

/-- Packet equality up to buffer/array-buffer representation of the data. -/
def packetEquiv (p q : Packet) : Bool :=
  p.type == q.type &&
    (match p.data, q.data with
     | none, none => true
     | some d, some e => pdataEquiv d e
     | _, _ => false)

/-! ## Payload codec -/

/-- Concatenation of a list of lists (`results.join('')` / `Buffer.concat`). -/
def concatAll : List (List Nat) → List Nat
  | [] => []
  | x :: xs => x ++ concatAll xs

/-- `forEach` with the element index, as used by `decodePayloadAsBinary`. -/
def forEachIdx (f : α → Nat → β) : List α → Nat → List β
  | [], _ => []
  | a :: as, i => f a i :: forEachIdx f as (i + 1)

/-- The message `encodePacket` delivers in the payload encoders, where
`supportsBinary` is falsy; it is always a string (buffer and array-buffer
data take the base64 path), so the `.bin` arm is unreachable (modelled as
the buffer's default `toString()`). -/
def encTxt (p : Packet) : List Nat :=
  match encodePacket p false with
  | .txt s => s
  | .bin b => utf8Decode b

/-- `setLengthHeader`: `message.length + ':' + message`. -/
def frameStr (m : List Nat) : List Nat := charDigits m.length ++ 58 :: m

/-- Text form of `encodePayload` (lines 186-213, `supportsBinary` falsy):
`'0:'` for an empty list, otherwise the concatenation of the framed
single-packet encodings, in order. -/
def encodePayloadStr (ps : List Packet) : List Nat :=
  if ps.isEmpty then jstr "0:"
  else concatAll (ps.map (fun p => frameStr (encTxt p)))

/-- One segment of `encodePayloadAsBinary` (lines 325-346): the packet is
encoded with `encodePacket(p, callback)` — so `supportsBinary` is `null` —
then framed as a kind byte (`0` string / `1` binary), one byte per decimal
digit of `packet.length` holding the digit's value, the terminator `255`,
and the body (strings as UTF-8). -/
def encodeOneBinary (p : Packet) : List Nat :=
  match encodePacket p false with
  | .txt s => 0 :: natDigits s.length ++ 255 :: utf8Encode s
  | .bin b => 1 :: natDigits b.length ++ 255 :: b

/-- `encodePayloadAsBinary` (lines 320-351): concatenation of the per-packet
segments (the empty list yields the empty buffer). -/
def encodePayloadAsBinary (ps : List Packet) : List Nat :=
  concatAll (ps.map encodeOneBinary)

/-- `encodePayload` dispatch (lines 186-194). -/
def encodePayload (ps : List Packet) (supportsBinary : Bool) : Encoded :=
  if supportsBinary then .bin (encodePayloadAsBinary ps)
  else .txt (encodePayloadStr ps)

/-- Packet states after `encodePayload` returns: both payload forms call
`encodePacket` with a falsy `supportsBinary`, so every buffer or
array-buffer packet goes through the base64 encoder. -/
def encodePayloadPost (ps : List Packet) (_supportsBinary : Bool) : List Packet :=
  ps.map (fun p => encodePacketPost p false)

/-- The scan loop of the text `decodePayload` (lines 263-303), returning the
list of callback invocations.  `l` is the total length `data.length`,
`consumed` the index `i` of the current character, `rest` the characters
from `i` on, `lenbuf` the accumulated `length` string.  The fuel bounds
`rest.length`.  The two parser-error returns inside the colon branch
(`'' == length || length != Number(length)` and `length != msg.length`) are
both modelled through `jsNumberNat`/the length test, and a successful
callback is assumed not to return `false` (no claim involves the
early-termination sentinel). -/
def dpAux : Nat → Nat → Bool → Nat → List Nat → List Nat → List Call
  | _, _, _, _, [], lenbuf => if lenbuf.isEmpty then [] else [(errPacket, 0, 1)]
  | 0, _, _, _, _ :: _, _ => []
  | f + 1, l, bt, consumed, ch :: rs, lenbuf =>
    if ch ≠ 58 then dpAux f l bt (consumed + 1) rs (lenbuf ++ [ch])
    else if lenbuf.isEmpty then [(errPacket, 0, 1)]
    else
      match jsNumberNat lenbuf with
      | none => [(errPacket, 0, 1)]
      | some n =>
        let msg := rs.take n
        if msg.length ≠ n then [(errPacket, 0, 1)]
        else if n = 0 then dpAux f l bt (consumed + 1) rs []
        else
          let pkt := decodePacketStr msg bt
          if pkt = errPacket then [(errPacket, 0, 1)]
          else (pkt, consumed + n, l) :: dpAux f l bt (consumed + 1 + n) (rs.drop n) []

/-- Text path of `decodePayload` (lines 244-304): the empty string is a
parser error, otherwise the scan starts at index 0. -/
def decodePayloadStr (s : List Nat) (binaryTypeAB : Bool) : List Call :=
  if s.isEmpty then [(errPacket, 0, 1)]
  else dpAux s.length s.length binaryTypeAB 0 s []

/-- Index of the first `255` byte, or `none`: in the source the scan
`for (var i = 1;;i++) if (bufferTail[i] == 255) break;` has no bound, and
when no byte equals `255` the out-of-bounds reads yield `undefined` forever
— the loop never breaks. -/
def find255 : List Nat → Option Nat
  | [] => none
  | b :: bs => if b = 255 then some 0 else (find255 bs).map (· + 1)

/-- The while loop of `decodePayloadAsBinary` (lines 371-386), yielding the
raw segments `(isString, bytes)` pushed into `buffers`, or `none` when the
source diverges.  Per iteration: `isString = bufferTail[0] == 0`; the bytes
before the first `255` (scanning from index 1) are rendered with
`String(byte)` and concatenated into `strLen`; the tail is cut at
`strLen.length + 1`; `msgLength = parseInt(strLen)` (`NaN` when `strLen` is
empty, in which case `slice(1, NaN)` pushes an empty message and
`slice(NaN)` leaves the tail in place).  The fuel bounds `tail.length`. -/
def dpbAux : Nat → List Nat → Option (List (Bool × List Nat))
  | _, [] => some []
  | 0, _ :: _ => none
  | f + 1, t0 :: rest =>
    let isString := t0 = 0
    match find255 rest with
    | none => none
    | some k =>
      let strLen := concatAll ((rest.take k).map charDigits)
      let tail1 := (t0 :: rest).drop (strLen.length + 1)
      match parseIntDec strLen with
      | none => (dpbAux f tail1).map (fun ms => (isString, []) :: ms)
      | some m =>
        (dpbAux f (tail1.drop (m + 1))).map
          (fun ms => (isString, (tail1.drop 1).take m) :: ms)

/-- `decodePayloadAsBinary` (lines 362-392): collect all segments, then
invoke the callback per segment with `(decodePacket(msg), index, total)`
(strings were converted with `toString('utf8')`); `none` when the source
diverges. -/
def decodePayloadBin (data : List Nat) (binaryTypeAB : Bool) : Option (List Call) :=
  (dpbAux data.length data).map (fun msgs =>
    forEachIdx
      (fun m i =>
        (decodePacket (if m.1 then .txt (utf8Decode m.2) else .bin m.2) binaryTypeAB,
          i, msgs.length))
      msgs 0)

/-- `decodePayload` dispatch (lines 244-247): strings take the text path,
everything else the binary path. -/
def decodePayload (d : Encoded) (binaryTypeAB : Bool) : Option (List Call) :=
  match d with
  | .txt s => some (decodePayloadStr s binaryTypeAB)
  | .bin b => decodePayloadBin b binaryTypeAB

/-! ## Validity predicates used by the round-trip statements -/

/-- Data admissible for the payload round-trip: absent, a non-empty ASCII
string, or a byte buffer. -/
def dataOkA : Option PData → Bool
  | none => true
  | some (.str s) => !s.isEmpty && s.all (· < 128)
  | some (.buf b) => b.all (· < 256)
  | some (.abuf _) => false

/-- A packet with one of the seven wire types and `dataOkA` data. -/
def goodPacketA (p : Packet) : Bool :=
  (match p.type with
   | some t => packetslist.contains t
   | none => false) && dataOkA p.data

/-- Data admissible for the single-packet round-trip: absent, a non-empty
string, or bytes. -/
def dataOkR : Option PData → Bool
  | none => true
  | some (.str s) => !s.isEmpty
  | some (.buf b) => b.all (· < 256)
  | some (.abuf a) => a.all (· < 256)

/-! ## Single-packet lemmas -/

theorem type_table (t : String) (h : packetslist.contains t = true) :
    ∃ c, c ≤ 6 ∧ packetsCode (some t) = some c ∧ packetslist.get? c = some t := by
  simp [packetslist] at h
  rcases h with h | h | h | h | h | h | h <;> subst h
  · exact ⟨0, by decide, by decide, by decide⟩
  · exact ⟨1, by decide, by decide, by decide⟩
  · exact ⟨2, by decide, by decide, by decide⟩
  · exact ⟨3, by decide, by decide, by decide⟩
  · exact ⟨4, by decide, by decide, by decide⟩
  · exact ⟨5, by decide, by decide, by decide⟩
  · exact ⟨6, by decide, by decide, by decide⟩

theorem codeOfDigitUnit_add48 (c : Nat) (hc : c ≤ 6) :
    codeOfDigitUnit (48 + c) = packetslist.get? c := by
  rw [codeOfDigitUnit, if_pos (by omega)]
  congr 1
  omega

theorem jsNumberNat_digit_unit (c : Nat) (hc : c ≤ 6) :
    jsNumberNat [48 + c] = some c := by
  rw [jsNumberNat_all_digits [48 + c] (by simp) (by intro x hx; simp at hx; subst hx; simp [isDigitU]; omega)]
  simp [digitsToNat]

theorem typeDigitStr_eq (t : Option String) (c : Nat) (h : packetsCode t = some c) :
    typeDigitStr t = [48 + c] := by
  rw [typeDigitStr, h]

theorem typeByte_eq (t : Option String) (c : Nat) (h : packetsCode t = some c) :
    typeByte t = c := by
  rw [typeByte, h]
  rfl

theorem decodePacketStr_digit (c : Nat) (t : String) (s : List Nat)
    (hc : c ≤ 6) (hget : packetslist.get? c = some t) :
    decodePacketStr ((48 + c) :: s) bt =
      if s ≠ [] then ⟨some t, some (.str s)⟩ else ⟨some t, none⟩ := by
  rw [decodePacketStr]
  rw [if_neg (by omega)]
  rw [jsNumberNat_digit_unit c hc]
  simp only [Option.isNone_some, Bool.false_eq_true, if_false]
  rw [codeOfDigitUnit_add48 c hc, hget]

theorem decodePacketStr_b64 (c : Nat) (t : String) (b : List Nat)
    (hc : c ≤ 6) (hget : packetslist.get? c = some t) (hb : ∀ x ∈ b, x < 256) :
    decodePacketStr (98 :: (48 + c) :: b64encode b) bt =
      ⟨some t, some (if bt then .abuf b else .buf b)⟩ := by
  rw [decodePacketStr, if_pos rfl, decodeBase64Packet]
  simp only [List.drop_succ_cons, List.drop_zero]
  rw [codeOfDigitUnit_add48 c hc, hget, b64_roundtrip b hb]

/-- `supportsBinary` falsy always yields a string (C10's core fact). -/
theorem encodePacket_false_txt (p : Packet) :
    encodePacket p false = .txt (encTxt p) := by
  cases p with
  | mk ptype pdata =>
    cases pdata with
    | none => rfl
    | some d => cases d <;> rfl

/-- Round-trip of the single-packet text encoding (the form used in both
payload encoders), with `binaryType` unset. -/
theorem decode_encTxt (p : Packet) (t : String) (c : Nat)
    (ht : p.type = some t) (hc : c ≤ 6)
    (hcode : packetsCode (some t) = some c) (hget : packetslist.get? c = some t)
    (hd : dataOkA p.data = true) :
    decodePacketStr (encTxt p) false = p := by
  cases p with
  | mk ptype pdata =>
    simp only at ht
    subst ht
    cases pdata with
    | none =>
      show decodePacketStr (typeDigitStr (some t)) false = _
      rw [typeDigitStr_eq _ c hcode]
      rw [show ([48 + c] : List Nat) = (48 + c) :: [] from rfl]
      rw [decodePacketStr_digit c t [] hc hget]
      simp
    | some d =>
      cases d with
      | str s =>
        have hs : s ≠ [] := by
          simp [dataOkA, List.isEmpty_iff] at hd
          exact hd.1
        show decodePacketStr (typeDigitStr (some t) ++ s) false = _
        rw [typeDigitStr_eq _ c hcode]
        show decodePacketStr ((48 + c) :: s) false = _
        rw [decodePacketStr_digit c t s hc hget, if_pos hs]
      | buf b =>
        have hb : ∀ x ∈ b, x < 256 := by
          simp [dataOkA] at hd
          intro x hx
          exact hd x hx
        show decodePacketStr (encodeBase64Packet ⟨some t, some (.buf b)⟩) false = _
        rw [encodeBase64Packet]
        simp only
        rw [typeDigitStr_eq _ c hcode]
        show decodePacketStr (98 :: (48 + c) :: b64encode b) false = _
        rw [decodePacketStr_b64 c t b hc hget hb]
        simp
      | abuf a =>
        simp [dataOkA] at hd

theorem encTxt_none (t : Option String) : encTxt ⟨t, none⟩ = typeDigitStr t := rfl

theorem encTxt_str (t : Option String) (s : List Nat) :
    encTxt ⟨t, some (.str s)⟩ = typeDigitStr t ++ s := rfl

theorem encTxt_buf (t : Option String) (b : List Nat) :
    encTxt ⟨t, some (.buf b)⟩ = 98 :: typeDigitStr t ++ b64encode b := rfl

/-- The text encoding of a valid-typed packet with `dataOkA` data is a
non-empty ASCII string. -/
theorem encTxt_ascii (p : Packet) (t : String) (c : Nat)
    (ht : p.type = some t) (hc : c ≤ 6) (hcode : packetsCode (some t) = some c)
    (hd : dataOkA p.data = true) :
    encTxt p ≠ [] ∧ ∀ u ∈ encTxt p, u < 128 := by
  cases p with
  | mk ptype pdata =>
    simp only at ht
    subst ht
    cases pdata with
    | none =>
      rw [encTxt_none, typeDigitStr_eq _ c hcode]
      refine ⟨by simp, ?_⟩
      intro u hu
      simp at hu
      omega
    | some d =>
      cases d with
      | str s =>
        have hs : ∀ u ∈ s, u < 128 := by
          simp [dataOkA] at hd
          intro u hu
          exact hd.2 u hu
        rw [encTxt_str, typeDigitStr_eq _ c hcode]
        refine ⟨by simp, ?_⟩
        intro u hu
        simp at hu
        rcases hu with h | h
        · omega
        · exact hs u h
      | buf b =>
        rw [encTxt_buf, typeDigitStr_eq _ c hcode]
        refine ⟨by simp, ?_⟩
        intro u hu
        simp at hu
        rcases hu with h | h | h
        · omega
        · omega
        · exact b64encode_all_lt128 b u h
      | abuf a =>
        simp [dataOkA] at hd

/-- Valid-typed decoded packets are never the error packet. -/
theorem decode_encTxt_ne_err (p : Packet) (t : String) (c : Nat)
    (ht : p.type = some t) (hc : c ≤ 6)
    (hcode : packetsCode (some t) = some c) (hget : packetslist.get? c = some t)
    (hd : dataOkA p.data = true) (hmem : packetslist.contains t = true) :
    decodePacketStr (encTxt p) false ≠ errPacket := by
  rw [decode_encTxt p t c ht hc hcode hget hd]
  intro heq
  have : p.type = errPacket.type := by rw [heq]
  rw [ht] at this
  simp [errPacket] at this
  subst this
  simp [packetslist] at hmem

/-- Unpack `goodPacketA` into the facts the round-trip proofs need. -/
theorem goodPacketA_spec (p : Packet) (h : goodPacketA p = true) :
    ∃ t c, p.type = some t ∧ packetslist.contains t = true ∧ c ≤ 6 ∧
      packetsCode (some t) = some c ∧ packetslist.get? c = some t ∧
      dataOkA p.data = true := by
  rw [goodPacketA, Bool.and_eq_true] at h
  obtain ⟨h1, h2⟩ := h
  cases htp : p.type with
  | none => rw [htp] at h1; simp at h1
  | some t =>
    rw [htp] at h1
    obtain ⟨c, hc, hcode, hget⟩ := type_table t h1
    exact ⟨t, c, rfl, h1, hc, hcode, hget, h2⟩

/-! ## Text payload round-trip -/

theorem take_append_self (l r : List α) : (l ++ r).take l.length = l := by
  induction l with
  | nil => rfl
  | cons a as ih => simp [ih]

theorem drop_append_self (l r : List α) : (l ++ r).drop l.length = r := by
  induction l with
  | nil => rfl
  | cons a as ih => simp [ih]

/-- Scanning non-colon characters accumulates them in `lenbuf`, advancing
the cursor and using up exactly one unit of fuel per character. -/
theorem dpAux_scan (l : Nat) (bt : Bool) :
    ∀ (pre : List Nat), 58 ∉ pre → ∀ (f c : Nat) (rest lb : List Nat),
      dpAux (pre.length + f) l bt c (pre ++ rest) lb =
        dpAux f l bt (c + pre.length) rest (lb ++ pre) := by
  intro pre
  induction pre with
  | nil =>
    intro _ f c rest lb
    simp
  | cons ch pre' ih =>
    intro h58 f c rest lb
    have hch : ch ≠ 58 := by
      intro h
      exact h58 (h ▸ List.mem_cons_self ch pre')
    have h58' : 58 ∉ pre' := fun h => h58 (List.mem_cons_of_mem ch h)
    show dpAux (pre'.length + 1 + f) l bt c (ch :: (pre' ++ rest)) lb = _
    have : pre'.length + 1 + f = (pre'.length + f) + 1 := by omega
    rw [this]
    rw [dpAux]
    rw [if_pos hch]
    rw [ih h58' f (c + 1) rest (lb ++ [ch])]
    simp only [List.append_assoc, List.singleton_append, List.length_cons]
    congr 1
    omega

/-- The expected callback list for the text payload decoder: for each packet
the callback argument pair is `(i + n, l)` where `i` is the index of the
segment's colon and `n` the body length. -/
def textCalls (l : Nat) : Nat → List Packet → List Call
  | _, [] => []
  | c, p :: rest =>
    (p, c + (charDigits (encTxt p).length).length + (encTxt p).length, l) ::
      textCalls l (c + (charDigits (encTxt p).length).length + 1 + (encTxt p).length) rest

/-- Main scan lemma: the decoder's loop over a concatenation of well-formed
frames produces exactly the per-packet callbacks of `textCalls`. -/
theorem dpAux_frames (l : Nat) :
    ∀ (ps : List Packet), (∀ p ∈ ps, goodPacketA p = true) →
      ∀ (c f : Nat), (concatAll (ps.map (fun p => frameStr (encTxt p)))).length ≤ f →
        dpAux f l false c (concatAll (ps.map (fun p => frameStr (encTxt p)))) [] =
          textCalls l c ps := by
  intro ps
  induction ps with
  | nil =>
    intro _ c f _
    show dpAux f l false c [] [] = []
    cases f <;> rfl
  | cons p rest ih =>
    intro hgood c f hf
    obtain ⟨t, tc, ht, hmem, htc6, hcode, hget, hdata⟩ :=
      goodPacketA_spec p (hgood p (List.mem_cons_self p rest))
    obtain ⟨hne, hascii⟩ := encTxt_ascii p t tc ht htc6 hcode hdata
    set m := encTxt p with hm
    set R := concatAll (rest.map (fun p => frameStr (encTxt p))) with hR
    have hlist : concatAll ((p :: rest).map (fun p => frameStr (encTxt p))) =
        charDigits m.length ++ (58 :: (m ++ R)) := by
      show frameStr m ++ R = _
      rw [frameStr]
      simp [List.append_assoc]
    rw [hlist] at hf ⊢
    have hflen : (charDigits m.length).length + 1 + m.length + R.length ≤ f := by
      simp [List.length_append] at hf
      omega
    have hsplit : f = (charDigits m.length).length + (f - (charDigits m.length).length) := by
      omega
    rw [hsplit, dpAux_scan l false (charDigits m.length)
      (by
        intro hmm
        have := charDigits_all_digit m.length 58 hmm
        simp [isDigitU] at this)]
    have hg : ∃ g, f - (charDigits m.length).length = g + 1 ∧ m.length + R.length ≤ g := by
      refine ⟨f - (charDigits m.length).length - 1, by omega, by omega⟩
    obtain ⟨g, hgeq, hgge⟩ := hg
    rw [hgeq]
    rw [dpAux]
    rw [if_neg (by simp)]
    rw [if_neg (by simp [List.isEmpty_iff, charDigits_ne_nil])]
    simp only [List.nil_append]
    rw [jsNumberNat_charDigits m.length]
    simp only
    rw [take_append_self m R]
    rw [if_neg (by simp)]
    rw [if_neg (by simpa [List.length_eq_zero] using hne)]
    rw [decode_encTxt p t tc ht htc6 hcode hget hdata]
    have hpne : p ≠ errPacket := by
      have hne' := decode_encTxt_ne_err p t tc ht htc6 hcode hget hdata hmem
      rwa [decode_encTxt p t tc ht htc6 hcode hget hdata] at hne'
    rw [if_neg hpne]
    rw [drop_append_self m R]
    rw [ih (fun q hq => hgood q (List.mem_cons_of_mem p hq)) _ g (by omega)]
    rw [textCalls]

theorem textCalls_map_fst (l : Nat) :
    ∀ (c : Nat) (ps : List Packet), (textCalls l c ps).map (fun x => x.1) = ps := by
  intro c ps
  induction ps generalizing c with
  | nil => rfl
  | cons p rest ih => simp [textCalls, ih]

theorem textCalls_length (l : Nat) :
    ∀ (c : Nat) (ps : List Packet), (textCalls l c ps).length = ps.length := by
  intro c ps
  induction ps generalizing c with
  | nil => rfl
  | cons p rest ih => simp [textCalls, ih]

theorem textCalls_total (l : Nat) :
    ∀ (c : Nat) (ps : List Packet), ∀ x ∈ textCalls l c ps, x.2.2 = l := by
  intro c ps
  induction ps generalizing c with
  | nil => intro x hx; simp [textCalls] at hx
  | cons p rest ih =>
    intro x hx
    rw [textCalls] at hx
    rcases List.mem_cons.mp hx with h | h
    · rw [h]
    · exact ih _ x h

/-- Length of one text frame. -/
def segLen (p : Packet) : Nat :=
  (charDigits (encTxt p).length).length + 1 + (encTxt p).length

/-- Total length of the framed payload. -/
def frameSum (ps : List Packet) : Nat :=
  (concatAll (ps.map (fun p => frameStr (encTxt p)))).length

theorem frameSum_cons (p : Packet) (rest : List Packet) :
    frameSum (p :: rest) = segLen p + frameSum rest := by
  simp [frameSum, segLen, concatAll, frameStr]
  omega

theorem getLast?_cons_of_ne_nil (a : α) (l : List α) (h : l ≠ []) :
    (a :: l).getLast? = l.getLast? := by
  cases l with
  | nil => exact absurd rfl h
  | cons b t => exact List.getLast?_cons_cons ..

theorem textCalls_last (l : Nat) :
    ∀ (ps : List Packet) (c : Nat), ps ≠ [] →
      (textCalls l c ps).getLast? =
        ps.getLast?.map (fun p => (p, c + frameSum ps - 1, l)) := by
  intro ps
  induction ps with
  | nil => intro c h; exact absurd rfl h
  | cons p rest ih =>
    intro c _
    cases rest with
    | nil =>
      rw [textCalls, textCalls]
      have h1 : c + (charDigits (encTxt p).length).length + (encTxt p).length
          = c + frameSum [p] - 1 := by
        simp [frameSum, concatAll, frameStr]
        omega
      simp [h1]
    | cons q rest' =>
      rw [textCalls]
      have hne2 : textCalls l (c + (charDigits (encTxt p).length).length + 1 +
          (encTxt p).length) (q :: rest') ≠ [] := by
        rw [textCalls]
        simp
      rw [getLast?_cons_of_ne_nil _ _ hne2]
      have hassoc : c + (charDigits (encTxt p).length).length + 1 + (encTxt p).length
          = c + segLen p := by
        rw [segLen]
        omega
      rw [hassoc, ih (c + segLen p) (by simp)]
      rw [getLast?_cons_of_ne_nil p (q :: rest') (by simp)]
      rw [show frameSum (p :: q :: rest') = segLen p + frameSum (q :: rest') from
        frameSum_cons ..]
      congr 1
      funext x
      simp [Prod.ext_iff]
      omega

/-- In the text payload decoder the error packet can only be emitted as the
final `(err, 0, 1)` callback, and successful callbacks never carry it. -/
theorem dpAux_err_last :
    ∀ (f l : Nat) (bt : Bool) (c : Nat) (rest lb : List Nat),
      errPacket ∈ (dpAux f l bt c rest lb).map (fun x => x.1) →
      ∃ pre, dpAux f l bt c rest lb = pre ++ [(errPacket, 0, 1)] ∧
        ∀ x ∈ pre, x.1 ≠ errPacket := by
  intro f
  induction f with
  | zero =>
    intro l bt c rest lb hmem
    cases rest with
    | nil =>
      rw [dpAux] at hmem ⊢
      by_cases h : lb.isEmpty
      · simp [h] at hmem
      · simp only [h, Bool.false_eq_true, if_false] at hmem ⊢
        exact ⟨[], rfl, by simp⟩
    | cons ch rs =>
      rw [dpAux] at hmem
      simp at hmem
  | succ f ih =>
    intro l bt c rest lb hmem
    cases rest with
    | nil =>
      rw [dpAux] at hmem ⊢
      by_cases h : lb.isEmpty
      · simp [h] at hmem
      · simp only [h, Bool.false_eq_true, if_false] at hmem ⊢
        exact ⟨[], rfl, by simp⟩
    | cons ch rs =>
      rw [dpAux] at hmem ⊢
      by_cases hch : ch ≠ 58
      · simp only [if_pos hch] at hmem ⊢
        exact ih l bt (c + 1) rs (lb ++ [ch]) hmem
      · simp only [if_neg hch] at hmem ⊢
        by_cases hlb : lb.isEmpty
        · simp only [if_pos hlb] at hmem ⊢
          exact ⟨[], rfl, by simp⟩
        · simp only [hlb, Bool.false_eq_true, if_false] at hmem ⊢
          cases hnum : jsNumberNat lb with
          | none =>
            simp only [hnum] at hmem ⊢
            exact ⟨[], rfl, by simp⟩
          | some n =>
            simp only [hnum] at hmem ⊢
            by_cases hlen : (rs.take n).length ≠ n
            · simp only [if_pos hlen] at hmem ⊢
              exact ⟨[], rfl, by simp⟩
            · simp only [if_neg hlen] at hmem ⊢
              by_cases hn0 : n = 0
              · simp only [if_pos hn0] at hmem ⊢
                exact ih l bt (c + 1) rs [] hmem
              · simp only [if_neg hn0] at hmem ⊢
                by_cases herr : decodePacketStr (rs.take n) bt = errPacket
                · simp only [if_pos herr] at hmem ⊢
                  exact ⟨[], rfl, by simp⟩
                · simp only [if_neg herr] at hmem ⊢
                  rw [List.map_cons, List.mem_cons] at hmem
                  rcases hmem with h | h
                  · exact absurd h.symm herr
                  · obtain ⟨pre, hpre, hne⟩ := ih l bt (c + 1 + n) (rs.drop n) [] h
                    refine ⟨(decodePacketStr (rs.take n) bt, c + n, l) :: pre, ?_, ?_⟩
                    · rw [hpre]; rfl
                    · intro x hx
                      rcases List.mem_cons.mp hx with h1 | h1
                      · rw [h1]; exact herr
                      · exact hne x h1

/-- Failure at a colon: empty prefix, `NaN` prefix, or a declared length
exceeding the remaining input all yield the single error callback. -/
theorem dpAux_colon_fail (f l : Nat) (bt : Bool) (c : Nat) (rest lb : List Nat)
    (h : lb = [] ∨ jsNumberNat lb = none ∨
      ∃ n, jsNumberNat lb = some n ∧ rest.length < n) :
    dpAux (f + 1) l bt c (58 :: rest) lb = [(errPacket, 0, 1)] := by
  rw [dpAux]
  rw [if_neg (by simp)]
  rcases h with h | h | ⟨n, hn, hlt⟩
  · rw [if_pos (by simp [h])]
  · by_cases hlb : lb.isEmpty
    · rw [if_pos hlb]
    · rw [if_neg (by simp [hlb]), h]
  · have hlb : ¬ lb.isEmpty := by
      intro he
      rw [List.isEmpty_iff] at he
      rw [he] at hn
      simp [jsNumberNat, trimJs] at hn
      omega
    rw [if_neg (by simpa using hlb), hn]
    simp only
    rw [if_pos (by simp; omega)]

/-! ## Binary payload round-trip -/

theorem find255_append (pre rest : List Nat) (h : ∀ x ∈ pre, x ≠ 255) :
    find255 (pre ++ 255 :: rest) = some pre.length := by
  induction pre with
  | nil => simp [find255]
  | cons a as ih =>
    have ha : a ≠ 255 := h a (List.mem_cons_self a as)
    rw [List.cons_append, find255, if_neg ha,
      ih (fun x hx => h x (List.mem_cons_of_mem a hx))]
    rfl

theorem concatAll_charDigits_singles (ds : List Nat) (h : ∀ d ∈ ds, d < 10) :
    concatAll (ds.map charDigits) = ds.map (fun d => 48 + d) := by
  induction ds with
  | nil => rfl
  | cons d rest ih =>
    rw [List.map_cons, concatAll, charDigits_single d (h d (List.mem_cons_self d rest)),
      ih (fun x hx => h x (List.mem_cons_of_mem d hx))]
    rfl

/-- The binary payload decoder's collection loop over the encoder's segments
yields exactly the per-packet string bodies. -/
theorem dpbAux_frames :
    ∀ (ps : List Packet), (∀ p ∈ ps, goodPacketA p = true) →
      ∀ (f : Nat), (concatAll (ps.map encodeOneBinary)).length ≤ f →
        dpbAux f (concatAll (ps.map encodeOneBinary)) =
          some (ps.map (fun p => (true, encTxt p))) := by
  intro ps
  induction ps with
  | nil =>
    intro _ f _
    cases f <;> rfl
  | cons p rest ih =>
    intro hgood f hf
    obtain ⟨t, tc, ht, hmem, htc6, hcode, hget, hdata⟩ :=
      goodPacketA_spec p (hgood p (List.mem_cons_self p rest))
    obtain ⟨hne, hascii⟩ := encTxt_ascii p t tc ht htc6 hcode hdata
    set m := encTxt p with hm
    set R := concatAll (rest.map encodeOneBinary) with hR
    have hseg : encodeOneBinary p = 0 :: natDigits m.length ++ 255 :: m := by
      rw [encodeOneBinary, encodePacket_false_txt p, ← hm]
      show 0 :: natDigits m.length ++ 255 :: utf8Encode m = _
      rw [utf8Encode_ascii m hascii]
    have hlist : concatAll ((p :: rest).map encodeOneBinary) =
        0 :: (natDigits m.length ++ 255 :: (m ++ R)) := by
      show encodeOneBinary p ++ R = _
      rw [hseg]
      simp [List.append_assoc]
    rw [hlist] at hf ⊢
    have hflen : 1 + (natDigits m.length).length + 1 + m.length + R.length ≤ f := by
      simp [List.length_append] at hf
      omega
    obtain ⟨g, hgeq⟩ : ∃ g, f = g + 1 := ⟨f - 1, by omega⟩
    subst hgeq
    rw [dpbAux]
    rw [find255_append (natDigits m.length) (m ++ R)
      (fun x hx => by have := natDigits_lt_ten m.length x hx; omega)]
    simp only
    rw [take_append_self (natDigits m.length) (255 :: (m ++ R))]
    rw [concatAll_charDigits_singles (natDigits m.length) (natDigits_lt_ten m.length)]
    rw [show (natDigits m.length).map (fun d => 48 + d) = charDigits m.length from rfl]
    rw [parseIntDec_charDigits m.length]
    simp only
    have hlen_cd : (charDigits m.length).length = (natDigits m.length).length := by
      simp [charDigits]
    rw [hlen_cd]
    have hdrop1 : (0 :: (natDigits m.length ++ 255 :: (m ++ R))).drop
        ((natDigits m.length).length + 1) = 255 :: (m ++ R) := by
      rw [List.drop_succ_cons]
      exact drop_append_self (natDigits m.length) (255 :: (m ++ R))
    rw [hdrop1]
    rw [List.drop_succ_cons, List.drop_zero, take_append_self m R]
    rw [List.drop_succ_cons, drop_append_self m R]
    rw [ih (fun q hq => hgood q (List.mem_cons_of_mem p hq)) g (by omega)]
    rfl

/-- Folding the decoded segments through the final `forEach` recovers the
packets with their index and the segment count. -/
theorem forEachIdx_decode (total : Nat) :
    ∀ (ps : List Packet), (∀ p ∈ ps, goodPacketA p = true) → ∀ (i : Nat),
      forEachIdx
        (fun m j =>
          (decodePacket (if m.1 then .txt (utf8Decode m.2) else .bin m.2) false, j, total))
        (ps.map (fun p => (true, encTxt p))) i =
      forEachIdx (fun p j => (p, j, total)) ps i := by
  intro ps
  induction ps with
  | nil => intro _ _; rfl
  | cons p rest ih =>
    intro hgood i
    obtain ⟨t, tc, ht, hmem, htc6, hcode, hget, hdata⟩ :=
      goodPacketA_spec p (hgood p (List.mem_cons_self p rest))
    obtain ⟨hne, hascii⟩ := encTxt_ascii p t tc ht htc6 hcode hdata
    rw [List.map_cons, forEachIdx, forEachIdx]
    rw [ih (fun q hq => hgood q (List.mem_cons_of_mem p hq)) (i + 1)]
    simp only [if_pos rfl]
    rw [utf8Decode_ascii (encTxt p) hascii]
    show (decodePacketStr (encTxt p) false, i, total) :: _ = _
    rw [decode_encTxt p t tc ht htc6 hcode hget hdata]

theorem forEachIdx_length (f : α → Nat → β) :
    ∀ (l : List α) (i : Nat), (forEachIdx f l i).length = l.length := by
  intro l
  induction l with
  | nil => intro i; rfl
  | cons a as ih => intro i; simp [forEachIdx, ih]

/-- The callback list the spec expects from the binary payload decoder:
each packet with its zero-based index and the packet count. -/
def indexedCalls (ps : List Packet) : List Call :=
  forEachIdx (fun p i => (p, i, ps.length)) ps 0

/-! ## Claim theorems -/

/-- C1, amended: for packets with one of the seven types and data that is
absent, a non-empty ASCII string, or a byte buffer, decoding
`encodePayload(ps, cap)` with `decodePayload` delivers exactly `|ps|`
callbacks with the packets equal in order to `ps`; in binary mode
(`cap = true`) the final callback carries `(|ps|-1, |ps|)`, but in text mode
(`cap = false`) every callback carries the cursor position after the body
and the encoded string's length, so the final one carries `(L-1, L)` where
`L` is the encoded length — not `(|ps|-1, |ps|)` as claimed. -/
theorem c1_roundtrip_amended (ps : List Packet)
    (h : ∀ p ∈ ps, goodPacketA p = true) :
    decodePayload (encodePayload ps true) false = some (indexedCalls ps) ∧
    ∃ cs, decodePayload (encodePayload ps false) false = some cs ∧
      cs.map (fun x => x.1) = ps ∧
      cs.length = ps.length ∧
      (∀ x ∈ cs, x.2.2 = (encodePayloadStr ps).length) ∧
      (ps ≠ [] → cs.getLast? = ps.getLast?.map
        (fun p => (p, (encodePayloadStr ps).length - 1, (encodePayloadStr ps).length))) := by
  constructor
  · show decodePayloadBin (encodePayloadAsBinary ps) false = _
    unfold decodePayloadBin encodePayloadAsBinary
    rw [dpbAux_frames ps h _ (le_refl _)]
    rw [Option.map_some']
    rw [show (List.map (fun p => (true, encTxt p)) ps).length = ps.length from by simp]
    rw [forEachIdx_decode ps.length ps h 0]
    rfl
  · cases hps : ps with
    | nil =>
      refine ⟨[], ?_, rfl, rfl, by simp, by simp⟩
      show some (decodePayloadStr (jstr "0:") false) = some []
      congr 1
    | cons p rest =>
      rw [← hps]
      have hne : ¬ ps.isEmpty := by rw [hps]; simp
      have hstr : encodePayloadStr ps =
          concatAll (ps.map (fun p => frameStr (encTxt p))) := by
        rw [encodePayloadStr, if_neg (by simpa using hne)]
      have hsne : ¬ (encodePayloadStr ps).isEmpty := by
        rw [hstr, hps]
        show ¬ (concatAll ((p :: rest).map (fun p => frameStr (encTxt p)))).isEmpty
        simp [concatAll, frameStr, List.isEmpty_iff]
      refine ⟨textCalls (encodePayloadStr ps).length 0 ps, ?_,
        textCalls_map_fst _ _ _, textCalls_length _ _ _, textCalls_total _ _ _, ?_⟩
      · show some (decodePayloadStr (encodePayloadStr ps) false) = _
        congr 1
        rw [hstr]
        rw [decodePayloadStr]
        rw [if_neg (by rw [← hstr]; simpa using hsne)]
        exact dpAux_frames _ ps h 0 _ (le_refl _)
      · intro hne2
        rw [textCalls_last _ ps 0 hne2]
        have hfs : frameSum ps = (encodePayloadStr ps).length := by
          rw [frameSum, ← hstr]
        rw [hfs]
        simp

/-- C1, counterexample: for the single text packet `(message, "hello")` in
text mode the only callback carries `(7, 8)` (cursor after body, string
length), not `(0, 1)` = `(|ps|-1, |ps|)`. -/
theorem c1_counterexample :
    decodePayload
      (encodePayload [⟨some "message", some (.str (jstr "hello"))⟩] false) false =
      some [(⟨some "message", some (.str (jstr "hello"))⟩, 7, 8)] ∧
    ([(⟨some "message", some (.str (jstr "hello"))⟩, 7, 8)] : List Call).getLast? ≠
      some (⟨some "message", some (.str (jstr "hello"))⟩, 0, 1) := by
  constructor
  · decide
  · decide

/-- A concrete payload for witnesses. -/
def samplePayload : List Packet :=
  [⟨some "message", some (.str (jstr "hi"))⟩, ⟨some "ping", none⟩]

/-- Witness for C1's amended theorem at a concrete two-packet payload. -/
theorem c1_roundtrip_amended_witness :
    (∀ p ∈ samplePayload, goodPacketA p = true) ∧
    (decodePayload (encodePayload samplePayload true) false =
        some (indexedCalls samplePayload) ∧
      ∃ cs, decodePayload (encodePayload samplePayload false) false = some cs ∧
        cs.map (fun x => x.1) = samplePayload ∧
        cs.length = samplePayload.length ∧
        (∀ x ∈ cs, x.2.2 = (encodePayloadStr samplePayload).length) ∧
        (samplePayload ≠ [] → cs.getLast? = samplePayload.getLast?.map
          (fun p => (p, (encodePayloadStr samplePayload).length - 1,
            (encodePayloadStr samplePayload).length)))) :=
  ⟨by decide, c1_roundtrip_amended samplePayload (by decide)⟩

theorem decodePacketBin_cons (c0 : Nat) (b : List Nat) (bt : Bool) :
    decodePacketBin (c0 :: b) bt =
      ⟨packetslist.get? c0, some (if bt then .abuf b else .buf b)⟩ := by
  cases bt <;> rfl

/-- C2, amended: the single-packet round-trip
`decodePacket (encodePacket p sb) bt ≡ p` (byte buffer ≡ array-buffer of the
same bytes) holds for every packet with one of the seven types whose data is
absent, a non-empty string, or bytes — except that array-buffer data
requires `sb = true` (with `sb = false` the base64 encoder zero-fills it),
and the empty-string data of the counterexample decodes as absent. -/
theorem c2_roundtrip_amended (p : Packet) (t : String) (sb bt : Bool)
    (ht : p.type = some t) (hmem : packetslist.contains t = true)
    (hd : dataOkR p.data = true)
    (hab : ∀ a, p.data = some (.abuf a) → sb = true) :
    packetEquiv (decodePacket (encodePacket p sb) bt) p = true := by
  obtain ⟨c, hc, hcode, hget⟩ := type_table t hmem
  cases p with
  | mk ptype pdata =>
    simp only at ht hab ⊢
    subst ht
    cases pdata with
    | none =>
      show packetEquiv (decodePacketStr (typeDigitStr (some t)) bt) _ = true
      rw [typeDigitStr_eq _ c hcode]
      rw [show ([48 + c] : List Nat) = (48 + c) :: [] from rfl]
      rw [decodePacketStr_digit c t [] hc hget]
      simp [packetEquiv]
    | some d =>
      cases d with
      | str s =>
        have hs : s ≠ [] := by
          simp [dataOkR, List.isEmpty_iff] at hd
          exact hd
        show packetEquiv (decodePacketStr (typeDigitStr (some t) ++ s) bt) _ = true
        rw [typeDigitStr_eq _ c hcode]
        show packetEquiv (decodePacketStr ((48 + c) :: s) bt) _ = true
        rw [decodePacketStr_digit c t s hc hget, if_pos hs]
        simp [packetEquiv, pdataEquiv]
      | buf b =>
        cases sb with
        | true =>
          show packetEquiv (decodePacketBin (typeByte (some t) :: b) bt) _ = true
          rw [typeByte_eq _ c hcode, decodePacketBin_cons c b bt, hget]
          cases bt <;> simp [packetEquiv, pdataEquiv]
        | false =>
          have hb : ∀ x ∈ b, x < 256 := by
            simp [dataOkR] at hd
            exact hd
          show packetEquiv
            (decodePacketStr (encodeBase64Packet ⟨some t, some (.buf b)⟩) bt) _ = true
          rw [encodeBase64Packet]
          simp only
          rw [typeDigitStr_eq _ c hcode]
          show packetEquiv (decodePacketStr (98 :: (48 + c) :: b64encode b) bt) _ = true
          rw [decodePacketStr_b64 c t b hc hget hb]
          cases bt <;> simp [packetEquiv, pdataEquiv]
      | abuf a =>
        have hsb : sb = true := hab a rfl
        subst hsb
        show packetEquiv (decodePacketBin (typeByte (some t) :: a) bt) _ = true
        rw [typeByte_eq _ c hcode, decodePacketBin_cons c a bt, hget]
        cases bt <;> simp [packetEquiv, pdataEquiv]

/-- C2, counterexample: a packet with empty-string data round-trips to a
packet with absent data, which is not equal (nor data-equivalent) to it. -/
theorem c2_counterexample :
    decodePacket (encodePacket ⟨some "message", some (.str [])⟩ false) false =
      ⟨some "message", none⟩ ∧
    packetEquiv (decodePacket (encodePacket ⟨some "message", some (.str [])⟩ false) false)
      ⟨some "message", some (.str [])⟩ = false := by
  constructor
  · decide
  · decide

/-- Witness for C2's amended theorem at a buffer packet with `sb = false`. -/
theorem c2_roundtrip_amended_witness :
    (⟨some "message", some (.buf [1, 2, 3])⟩ : Packet).type = some "message" ∧
    packetslist.contains "message" = true ∧
    dataOkR (⟨some "message", some (.buf [1, 2, 3])⟩ : Packet).data = true ∧
    packetEquiv
      (decodePacket (encodePacket ⟨some "message", some (.buf [1, 2, 3])⟩ false) false)
      ⟨some "message", some (.buf [1, 2, 3])⟩ = true :=
  ⟨rfl, by decide, by decide,
    c2_roundtrip_amended ⟨some "message", some (.buf [1, 2, 3])⟩ "message" false false
      rfl (by decide) (by decide) (fun a ha => by simp at ha)⟩

/-- The binary payload segment format, following the spec's words as amended:
kind byte, one byte per decimal digit of the body's JavaScript string length
(character count, not UTF-8 byte count), the terminator `255`, the UTF-8
body. -/
def specBinSegment (p : Packet) : List Nat :=
  0 :: natDigits (encTxt p).length ++ 255 :: utf8Encode (encTxt p)

theorem encodeOneBinary_eq_spec (p : Packet) :
    encodeOneBinary p = specBinSegment p := by
  rw [encodeOneBinary, encodePacket_false_txt p]
  rfl

/-- C3, amended: every segment of `encodePayloadAsBinary` is the kind byte
`0`, then one byte per decimal digit — holding the digit's value — of the
body's character length (`packet.length`, which equals the UTF-8 byte count
only for ASCII bodies), then `255`, then the UTF-8 body; in particular the
single packet `(message, "hello")` encodes to
`[0x00, 0x06, 0xFF, '4', 'h', 'e', 'l', 'l', 'o']`. -/
theorem c3_binary_format_amended :
    (∀ ps : List Packet, encodePayloadAsBinary ps = concatAll (ps.map specBinSegment)) ∧
    encodePayloadAsBinary [⟨some "message", some (.str (jstr "hello"))⟩] =
      [0, 6, 255, 52, 104, 101, 108, 108, 111] := by
  constructor
  · intro ps
    rw [encodePayloadAsBinary]
    congr 1
    exact List.map_congr_left fun q _ => encodeOneBinary_eq_spec q
  · decide

/-- C3, counterexample: for the packet `(message, "é")` the body
`utf8("4é")` is 3 bytes, so the claimed format would emit the digit byte
`3`, but the source counts characters and emits `2`. -/
theorem c3_counterexample :
    encodePayloadAsBinary [⟨some "message", some (.str [233])⟩] =
      [0, 2, 255, 52, 195, 169] ∧
    (utf8Encode (encTxt ⟨some "message", some (.str [233])⟩)).length = 3 ∧
    encodePayloadAsBinary [⟨some "message", some (.str [233])⟩] ≠
      [0, 3, 255, 52, 195, 169] := by
  refine ⟨by decide, by decide, by decide⟩

theorem mem_of_get?_some {l : List α} {n : Nat} {a : α} (h : l.get? n = some a) :
    a ∈ l := by
  induction l generalizing n with
  | nil => simp [List.get?] at h
  | cons x xs ih =>
    cases n with
    | zero =>
      simp [List.get?] at h
      rw [h]
      exact List.mem_cons_self a xs
    | succ n => exact List.mem_cons_of_mem x (ih h)

theorem codeOfDigitUnit_valid (c : Nat) :
    codeOfDigitUnit c = none ∨
      ∃ t, codeOfDigitUnit c = some t ∧ t ∈ packetslist := by
  rw [codeOfDigitUnit]
  by_cases h : 48 ≤ c ∧ c ≤ 54
  · rw [if_pos h]
    cases hg : packetslist.get? (c - 48) with
    | none => exact Or.inl rfl
    | some t => exact Or.inr ⟨t, rfl, mem_of_get?_some hg⟩
  · rw [if_neg h]
    exact Or.inl rfl

theorem decodeBase64Packet_type (s : List Nat) (bt : Bool) :
    (decodeBase64Packet s bt).type = none ∨
      ∃ t, (decodeBase64Packet s bt).type = some t ∧ t ∈ packetslist := by
  cases s with
  | nil => exact Or.inl rfl
  | cons c rest =>
    show codeOfDigitUnit c = none ∨ ∃ t, codeOfDigitUnit c = some t ∧ t ∈ packetslist
    exact codeOfDigitUnit_valid c

/-- C4, amended: every packet produced by the single-packet decoders has a
type that is one of the seven variants, or is the error packet, or has an
`undefined` (`none`) type — the binary and base64 paths do not validate the
type code, so an out-of-range code yields `undefined` rather than the error
packet. -/
theorem c4_decoded_type_amended (e : Encoded) (s : List Nat) (bt : Bool) :
    (decodePacket e bt = errPacket ∨ (decodePacket e bt).type = none ∨
      ∃ t, (decodePacket e bt).type = some t ∧ t ∈ packetslist) ∧
    ((decodeBase64Packet s bt).type = none ∨
      ∃ t, (decodeBase64Packet s bt).type = some t ∧ t ∈ packetslist) := by
  refine ⟨?_, decodeBase64Packet_type s bt⟩
  cases e with
  | bin b =>
    show decodePacketBin b bt = errPacket ∨ (decodePacketBin b bt).type = none ∨
      ∃ t, (decodePacketBin b bt).type = some t ∧ t ∈ packetslist
    cases b with
    | nil =>
      cases bt with
      | true => exact Or.inr (Or.inl rfl)
      | false => exact Or.inr (Or.inl rfl)
    | cons t0 rest =>
      rw [decodePacketBin_cons t0 rest bt]
      cases hg : packetslist.get? t0 with
      | none => exact Or.inr (Or.inl rfl)
      | some t => exact Or.inr (Or.inr ⟨t, rfl, mem_of_get?_some hg⟩)
  | txt s' =>
    show decodePacketStr s' bt = errPacket ∨ (decodePacketStr s' bt).type = none ∨
      ∃ t, (decodePacketStr s' bt).type = some t ∧ t ∈ packetslist
    cases s' with
    | nil => exact Or.inl rfl
    | cons c rest =>
      rw [decodePacketStr]
      by_cases hb : c = 98
      · rw [if_pos hb]
        rcases decodeBase64Packet_type rest bt with h | ⟨t, h1, h2⟩
        · exact Or.inr (Or.inl h)
        · exact Or.inr (Or.inr ⟨t, h1, h2⟩)
      · rw [if_neg hb]
        by_cases hn : (jsNumberNat [c]).isNone
        · rw [if_pos hn]
          exact Or.inl rfl
        · rw [if_neg hn]
          rcases codeOfDigitUnit_valid c with h | ⟨t, h1, h2⟩
          · rw [h]
            exact Or.inl rfl
          · rw [h1]
            refine Or.inr (Or.inr ⟨t, ?_, h2⟩)
            show (if rest ≠ [] then (⟨some t, some (.str rest)⟩ : Packet)
              else ⟨some t, none⟩).type = some t
            by_cases hr : rest ≠ []
            · rw [if_pos hr]
            · rw [if_neg hr]

/-- C4, counterexample: decoding the binary packet `[7]` yields a packet
whose type is `undefined` — neither a valid variant nor the error packet. -/
theorem c4_counterexample :
    decodePacket (.bin [7]) false = ⟨none, some (.buf [])⟩ ∧
    decodePacket (.bin [7]) false ≠ errPacket ∧
    ∀ t ∈ packetslist, (decodePacket (.bin [7]) false).type ≠ some t := by
  refine ⟨by decide, by decide, by decide⟩

/-- C5, amended: whenever the text payload decoder's scan fails (empty or
`NaN` length prefix, body shorter than declared, body decoding to the error
packet, or trailing characters), the callback receives `(err, 0, 1)` exactly
once, as the final invocation; callbacks already delivered for earlier
well-formed segments are not retracted, and no successful callback ever
carries the error packet. -/
theorem c5_error_callback_amended (s : List Nat) (bt : Bool)
    (h : errPacket ∈ (decodePayloadStr s bt).map (fun x => x.1)) :
    ∃ pre, decodePayloadStr s bt = pre ++ [(errPacket, 0, 1)] ∧
      ∀ x ∈ pre, x.1 ≠ errPacket := by
  rw [decodePayloadStr] at h ⊢
  by_cases he : s.isEmpty
  · rw [if_pos he]
    exact ⟨[], rfl, by simp⟩
  · rw [if_neg he] at h ⊢
    exact dpAux_err_last _ _ _ _ _ _ h

/-- C5, counterexample: the malformed payload `"1:25"` (trailing digit with
no colon) produces two callbacks — the ping packet first, then the error —
not exactly one error callback. -/
theorem c5_counterexample :
    decodePayloadStr (jstr "1:25") false =
      [(⟨some "ping", none⟩, 2, 4), (errPacket, 0, 1)] ∧
    decodePayloadStr (jstr "1:25") false ≠ [(errPacket, 0, 1)] := by
  refine ⟨by decide, by decide⟩

/-- Witness for C5's amended theorem at the payload `"1:a"`. -/
theorem c5_error_callback_amended_witness :
    errPacket ∈ (decodePayloadStr (jstr "1:a") false).map (fun x => x.1) ∧
    ∃ pre, decodePayloadStr (jstr "1:a") false = pre ++ [(errPacket, 0, 1)] ∧
      ∀ x ∈ pre, x.1 ≠ errPacket :=
  ⟨by decide, c5_error_callback_amended (jstr "1:a") false (by decide)⟩

theorem forEachIdx_call_bounds (g : (Bool × List Nat) → Nat → Packet) (T : Nat) :
    ∀ (msgs : List (Bool × List Nat)) (i0 : Nat) (y : Call),
      y ∈ forEachIdx (fun m i => (g m i, i, T)) msgs i0 →
      i0 ≤ y.2.1 ∧ y.2.1 < i0 + msgs.length ∧ y.2.2 = T := by
  intro msgs
  induction msgs with
  | nil => intro i0 y hy; simp [forEachIdx] at hy
  | cons m rest ih =>
    intro i0 y hy
    rw [forEachIdx] at hy
    rcases List.mem_cons.mp hy with h | h
    · rw [h]
      refine ⟨le_refl _, by simp, rfl⟩
    · obtain ⟨h1, h2, h3⟩ := ih (i0 + 1) y h
      exact ⟨by omega, by simp; omega, h3⟩

/-- C6, amended: the codec reports malformed input by value, not by raising;
the text payload decoder reports failure with a final `(err, 0, 1)`
callback, but the binary payload decoder forwards per-segment error packets
to the callback with their positional `(index, total)` arguments, which need
not be `(0, 1)`. -/
theorem c6_error_reporting_amended (s : List Nat) (bt : Bool) (x : Call)
    (hx : x ∈ decodePayloadStr s bt) (hxe : x.1 = errPacket)
    (b : List Nat) (bt2 : Bool) (cs : List Call)
    (hcs : decodePayloadBin b bt2 = some cs) (y : Call) (hy : y ∈ cs) :
    x.2 = (0, 1) ∧ y.2.1 < cs.length ∧ y.2.2 = cs.length := by
  constructor
  · have hmem : errPacket ∈ (decodePayloadStr s bt).map (fun c => c.1) :=
      List.mem_map.mpr ⟨x, hx, hxe⟩
    obtain ⟨pre, hpre, hnone⟩ := c5_error_callback_amended s bt hmem
    rw [hpre] at hx
    rcases List.mem_append.mp hx with h | h
    · exact absurd hxe (hnone x h)
    · simp at h
      rw [h]
  · rw [decodePayloadBin] at hcs
    cases hdpb : dpbAux b.length b with
    | none => rw [hdpb] at hcs; simp at hcs
    | some msgs =>
      rw [hdpb] at hcs
      rw [Option.map_some'] at hcs
      injection hcs with hcs
      subst hcs
      obtain ⟨h1, h2, h3⟩ := forEachIdx_call_bounds
        (fun m i => decodePacket (if m.1 then .txt (utf8Decode m.2) else .bin m.2) bt2)
        msgs.length msgs 0 y hy
      rw [forEachIdx_length]
      exact ⟨by omega, h3⟩

/-- C6, counterexample: a binary payload with two bad segments passes the
error packet to the callback with `(1, 2)` — not `(0, 1)` — so malformed
input is not reported only via `(error_packet, 0, 1)`. -/
theorem c6_counterexample :
    decodePayloadBin [0, 1, 255, 120, 0, 1, 255, 120] false =
      some [(errPacket, 0, 2), (errPacket, 1, 2)] ∧
    ((errPacket, 1, 2) : Call).2 ≠ ((0 : Nat), (1 : Nat)) := by
  refine ⟨by decide, by decide⟩

/-- Witness for C6's amended theorem at `"a:"` (text) and a one-segment bad
binary payload. -/
theorem c6_error_reporting_amended_witness :
    ((errPacket, 0, 1) : Call) ∈ decodePayloadStr (jstr "a:") false ∧
    decodePayloadBin [0, 1, 255, 120] false = some [(errPacket, 0, 1)] ∧
    (((errPacket, 0, 1) : Call).2 = (0, 1) ∧
      ((errPacket, 0, 1) : Call).2.1 < ([(errPacket, 0, 1)] : List Call).length ∧
      ((errPacket, 0, 1) : Call).2.2 = ([(errPacket, 0, 1)] : List Call).length) :=
  ⟨by decide, by decide,
    c6_error_reporting_amended (jstr "a:") false (errPacket, 0, 1) (by decide) (by decide)
      [0, 1, 255, 120] false [(errPacket, 0, 1)] (by decide) (errPacket, 0, 1) (by decide)⟩

/-- C7: on the buffer `[0x00]` — a length header with no `255` terminator —
`decodePayloadAsBinary` never terminates (the unbounded header scan reads
`undefined` past the end of the buffer forever); it does not reach a FAIL
state or emit the error packet.  The same happens for `[0x00, 0xFF]`, whose
empty digit run makes `parseInt('')` return `NaN` and the slice by `NaN`
leaves the 255 byte in place. -/
theorem c7_divergence :
    decodePayloadBin [0] false = none ∧ decodePayloadBin [0, 255] false = none := by
  refine ⟨by decide, by decide⟩

/-- C8, amended: at a colon the accumulated length prefix is accepted only
if it is non-empty and `ToNumber` of it is a number; the canonical-form
round-trip check claimed by the spec is not performed (the comparison is
JavaScript's loose `!=`, so `"01"`, `" 1"`, `"0x10"` or `"1e2"` are all
accepted); and if fewer than the declared number of characters remain after
the colon, the decode fails with the single error callback. -/
theorem c8_length_prefix_amended (lb rest : List Nat) (bt : Bool)
    (h58 : 58 ∉ lb)
    (h : lb = [] ∨ jsNumberNat lb = none ∨
      ∃ n, jsNumberNat lb = some n ∧ rest.length < n) :
    decodePayloadStr (lb ++ 58 :: rest) bt = [(errPacket, 0, 1)] := by
  rw [decodePayloadStr]
  rw [if_neg (by simp)]
  have hlen : (lb ++ 58 :: rest).length = lb.length + (rest.length + 1) := by
    simp
  rw [hlen]
  rw [dpAux_scan _ bt lb h58 (rest.length + 1) 0 (58 :: rest) []]
  rw [List.nil_append, Nat.zero_add]
  exact dpAux_colon_fail rest.length _ bt lb.length rest lb h

/-- C8, counterexample: the non-canonical length prefix `"01"` is accepted —
`"01:4"` decodes to a message callback, not the error callback. -/
theorem c8_counterexample :
    decodePayloadStr (jstr "01:4") false = [(⟨some "message", none⟩, 3, 4)] ∧
    decodePayloadStr (jstr "01:4") false ≠ [(errPacket, 0, 1)] := by
  refine ⟨by decide, by decide⟩

/-- Witness for C8's amended theorem at the prefix `"a"`. -/
theorem c8_length_prefix_amended_witness :
    (58 ∉ [97]) ∧ jsNumberNat [97] = none ∧
    decodePayloadStr ([97] ++ 58 :: []) false = [(errPacket, 0, 1)] :=
  ⟨by decide, by decide,
    c8_length_prefix_amended [97] [] false (by decide) (Or.inr (Or.inl (by decide)))⟩

/-- C9, amended: the encoders never change a packet's `type`, and they leave
the packet unchanged unless its data is an `ArrayBuffer`, in which case the
base64 path (taken whenever `supports_binary` is falsy, including both
payload encoders) replaces `packet.data` with a zero-filled byte buffer. -/
theorem c9_immutability_amended (p : Packet) (sb : Bool) (ps : List Packet) :
    (encodePacketPost p sb).type = p.type ∧
    (encodeBase64PacketPost p).type = p.type ∧
    ((∀ a, p.data ≠ some (.abuf a)) →
      encodePacketPost p sb = p ∧ encodeBase64PacketPost p = p) ∧
    ((∀ q ∈ ps, ∀ a, q.data ≠ some (.abuf a)) → encodePayloadPost ps sb = ps) := by
  have hb64 : ∀ q : Packet, (∀ a, q.data ≠ some (.abuf a)) →
      encodeBase64PacketPost q = q := by
    intro q hq
    cases q with
    | mk qt qd =>
      cases qd with
      | none => rfl
      | some d =>
        cases d with
        | str s => rfl
        | buf b => rfl
        | abuf a => exact absurd rfl (hq a)
  have hpk : ∀ (q : Packet) (sb' : Bool), (∀ a, q.data ≠ some (.abuf a)) →
      encodePacketPost q sb' = q := by
    intro q sb' hq
    cases q with
    | mk qt qd =>
      cases qd with
      | none => rfl
      | some d =>
        cases d with
        | str s => rfl
        | buf b =>
          cases sb' with
          | true => rfl
          | false => exact hb64 ⟨qt, some (.buf b)⟩ hq
        | abuf a => exact absurd rfl (hq a)
  refine ⟨?_, ?_, fun hp => ⟨hpk p sb hp, hb64 p hp⟩, ?_⟩
  · cases p with
    | mk pt pd =>
      cases pd with
      | none => rfl
      | some d =>
        cases d with
        | str s => rfl
        | buf b => cases sb <;> rfl
        | abuf a => cases sb <;> rfl
  · cases p with
    | mk pt pd =>
      cases pd with
      | none => rfl
      | some d => cases d <;> rfl
  · intro hps
    rw [encodePayloadPost]
    have : ∀ q ∈ ps, encodePacketPost q false = q :=
      fun q hq => hpk q false (hps q hq)
    calc ps.map (fun q => encodePacketPost q false) = ps.map id :=
          List.map_congr_left fun q hq => this q hq
      _ = ps := List.map_id ps

/-- C9, counterexample: `encodeBase64Packet` on a packet with `ArrayBuffer`
data `[1]` overwrites `packet.data` with the zero-filled buffer `[0]`. -/
theorem c9_counterexample :
    encodeBase64PacketPost ⟨some "message", some (.abuf [1])⟩ =
      ⟨some "message", some (.buf [0])⟩ ∧
    (encodeBase64PacketPost ⟨some "message", some (.abuf [1])⟩).data ≠
      (⟨some "message", some (.abuf [1])⟩ : Packet).data := by
  refine ⟨by decide, by decide⟩

/-- Witness for C9's amended theorem at a string packet. -/
theorem c9_immutability_amended_witness :
    (encodePacketPost ⟨some "message", some (.str [104])⟩ false).type =
      (⟨some "message", some (.str [104])⟩ : Packet).type ∧
    encodePacketPost ⟨some "message", some (.str [104])⟩ false =
      ⟨some "message", some (.str [104])⟩ ∧
    encodePayloadPost [⟨some "message", some (.str [104])⟩] false =
      [⟨some "message", some (.str [104])⟩] :=
  ⟨(c9_immutability_amended ⟨some "message", some (.str [104])⟩ false
      [⟨some "message", some (.str [104])⟩]).1,
    ((c9_immutability_amended ⟨some "message", some (.str [104])⟩ false
      [⟨some "message", some (.str [104])⟩]).2.2.1
        (fun a ha => by simp at ha)).1,
    (c9_immutability_amended ⟨some "message", some (.str [104])⟩ false
      [⟨some "message", some (.str [104])⟩]).2.2.2
        (fun q hq a ha => by
          simp at hq
          subst hq
          simp at ha)⟩

/-- C10: with the callback in the `supports_binary` position the capability
is `null`, so `encodePacket` always yields a text string (binary data is
base64-wrapped), and every segment `encodePayloadAsBinary` frames starts
with the kind byte `0`; the `1` (binary body) branch is never taken. -/
theorem c10_kind_byte (p : Packet) (ps : List Packet) :
    encodePacket p false = .txt (encTxt p) ∧
    (encodeOneBinary p).head? = some 0 ∧
    ∀ seg ∈ ps.map encodeOneBinary, seg.head? = some 0 := by
  have hone : ∀ q : Packet, (encodeOneBinary q).head? = some 0 := by
    intro q
    rw [encodeOneBinary, encodePacket_false_txt q]
    rfl
  refine ⟨encodePacket_false_txt p, hone p, ?_⟩
  intro seg hseg
  obtain ⟨q, _, rfl⟩ := List.mem_map.mp hseg
  exact hone q

end EioProto
